import Mathlib

/-!
Verification of `sharded-vec-writer` (src/src/lib.rs).

A `VecWriter` hands out disjoint shards of the spare capacity of a `Vec`;
each shard is filled by `try_push` and then returned with
`try_return_shard`, which extends the vector's initialised length.

The embedding models the `Vec<T>` as a record `VecT`:
  * `addr` — the identity of the backing allocation (the value of
    `as_mut_ptr()`); two distinct live allocations have distinct addresses;
  * `cap`  — `capacity()`;
  * `len`  — `len()`, the initialised logical length;
  * `mem`  — the slots of the allocation, `none` for uninitialised raw
    storage, `some v` once a value `v` has been written there.
`usize` arithmetic is modelled on `Nat` (where `saturating_add` coincides
with `+`).  Writes through the shard's raw pointer become `List.set` on
`mem`; `Vec::set_len` becomes an update of `len`.  The destructor of
`Shard` only `read`s (destructs) values, it never writes, so it is
modelled by the list of offsets it destructs, in the order the loop
visits them.
-/

namespace ShardedVecWriter

/-- `InitError` from src/src/lib.rs: an error returned by
`try_return_shard`. -/
inductive InitError where
  | UninitElements
  | WrongVec
  | OutOfOrder
deriving DecidableEq, Repr

/-- `InsufficientCapacity` from src/src/lib.rs: the error returned by
`Shard::try_push` when the shard is already full. -/
inductive InsufficientCapacity where
  | mk
deriving DecidableEq, Repr

/-- The `Vec<T>` a writer writes into: allocation identity (`as_mut_ptr`),
capacity, initialised length, and the slots of the allocation. -/
structure VecT (α : Type) where
  addr : Nat
  cap : Nat
  len : Nat
  mem : List (Option α)
deriving DecidableEq, Repr

/-- `VecWriter` from src/src/lib.rs: the `&mut Vec<T>` it writes into and
`taken`, the offset up to which shards have been handed out. -/
structure VecWriter (α : Type) where
  storage : VecT α
  taken : Nat
deriving DecidableEq, Repr

/-- `Shard` from src/src/lib.rs.  `storage` is the raw pointer to the
start of the writer's allocation (its identity here), and
`initialised_up_to` is the exclusive offset up to which the shard has
been initialised. -/
structure Shard (α : Type) where
  storage : Nat
  start_offset : Nat
  end_offset : Nat
  initialised_up_to : Nat
deriving DecidableEq, Repr

/-- `VecWriter::new`: `let taken = storage.len()`. -/
def VecWriter.new (storage : VecT α) : VecWriter α :=
  { storage := storage, taken := storage.len }

/-- `VecWriter::try_take_shard`.  `self.taken.saturating_add(n)` is `taken
+ n` on `Nat`; if it exceeds `self.storage.capacity()` the writer is left
unchanged and `None` is returned, otherwise the shard
`[taken, taken + n)` pointing at this writer's allocation is produced and
`taken` advances.  Mirrors the `&mut self` method as state-in/state-out. -/
def tryTakeShard (w : VecWriter α) (n : Nat) : VecWriter α × Option (Shard α) :=
  let end_offset := w.taken + n
  if end_offset > w.storage.cap then
    (w, none)
  else
    ({ w with taken := end_offset },
     some { storage := w.storage.addr
            start_offset := w.taken
            end_offset := end_offset
            initialised_up_to := w.taken })

/-- The offsets destructed by `Shard`'s `Drop` impl, in the order the
loop `for offset in self.start_offset..self.initialised_up_to` visits
them.  Each iteration only performs `self.storage.add(offset).read()`,
which destructs the value at `offset` and writes nothing. -/
def dropDestructs (s : Shard α) : List Nat :=
  List.range' s.start_offset (s.initialised_up_to - s.start_offset)

/-- Abandoning a shard (dropping it without returning it): the vector the
writer holds is untouched — the destructor never writes through the
pointer — and the values at the listed offsets are destructed in that
order. -/
def abandon (w : VecWriter α) (s : Shard α) : VecWriter α × List Nat :=
  (w, dropDestructs s)

/-- `VecWriter::try_return_shard`.  The three checks in source order:
pointer identity (`WrongVec`), full initialisation (`UninitElements`),
then `self.storage.len() != shard.start_offset` (`OutOfOrder`).  On
success `set_len(shard.initialised_up_to)` and `mem::forget(shard)` — no
destructor runs (third component `[]`).  The shard is passed by value, so
on each error path it is dropped inside the call and its destructor runs:
the third component lists the offsets whose values the call destructs. -/
def tryReturnShard (w : VecWriter α) (s : Shard α) :
    VecWriter α × Except InitError Unit × List Nat :=
  if w.storage.addr ≠ s.storage then
    (w, Except.error InitError.WrongVec, dropDestructs s)
  else if s.initialised_up_to ≠ s.end_offset then
    (w, Except.error InitError.UninitElements, dropDestructs s)
  else if w.storage.len ≠ s.start_offset then
    (w, Except.error InitError.OutOfOrder, dropDestructs s)
  else
    ({ w with storage := { w.storage with len := s.initialised_up_to } },
     Except.ok (), [])

/-- `Shard::try_push`, acting on the slots `mem` of the allocation the
shard's pointer points into.  If the shard is full, the error is returned
and nothing changes; otherwise `value` is written at absolute offset
`initialised_up_to`, which then advances by one. -/
def tryPush (mem : List (Option α)) (s : Shard α) (v : α) :
    (List (Option α) × Shard α) × Except InsufficientCapacity Unit :=
  if s.initialised_up_to = s.end_offset then
    ((mem, s), Except.error InsufficientCapacity.mk)
  else
    ((mem.set s.initialised_up_to (some v),
      { s with initialised_up_to := s.initialised_up_to + 1 }),
     Except.ok ())

/-- `Shard::output_offset`. -/
def Shard.output_offset (s : Shard α) : Nat :=
  s.initialised_up_to

/-- The logical contents of the vector: the first `len` slots. -/
def VecT.contents (v : VecT α) : List (Option α) :=
  v.mem.take v.len

/-- Pushing a list of values one by one; fails if any push fails.  Also
records, for each successful push, the offset it wrote to (the shard's
`initialised_up_to` at the time of that push). -/
def pushAll (mem : List (Option α)) (s : Shard α) :
    List α → Option ((List (Option α) × Shard α) × List Nat)
  | [] => some ((mem, s), [])
  | v :: vs =>
    match tryPush mem s v with
    | ((mem', s'), Except.ok _) =>
      (pushAll mem' s' vs).map (fun p => (p.1, s.initialised_up_to :: p.2))
    | (_, Except.error _) => none

/-- A fully filled shard: `initialised_up_to` has reached `end_offset`
(the state produced by pushing `end_offset - initialised_up_to` more
values, see `pushAll_fillFull`). -/
def fillFull (s : Shard α) : Shard α :=
  { s with initialised_up_to := s.end_offset }

/-- Taking shards for each size in turn (failed takes leave the writer
unchanged and record `none`). -/
def takeAll (w : VecWriter α) : List Nat → VecWriter α × List (Option (Shard α))
  | [] => (w, [])
  | n :: ns =>
    let p := tryTakeShard w n
    let r := takeAll p.1 ns
    (r.1, p.2 :: r.2)

/-- Taking shards for each size in turn, requiring every take to
succeed. -/
def takeAllOk (w : VecWriter α) : List Nat → Option (VecWriter α × List (Shard α))
  | [] => some (w, [])
  | n :: ns =>
    match tryTakeShard w n with
    | (_, none) => none
    | (w', some s) => (takeAllOk w' ns).map (fun r => (r.1, s :: r.2))

/-- Returning a list of shards in order, recording after each return the
writer state and the result of that return. -/
def returnAllTrace (w : VecWriter α) :
    List (Shard α) → List (VecWriter α × Except InitError Unit)
  | [] => []
  | s :: ss =>
    let p := tryReturnShard w s
    (p.1, p.2.1) :: returnAllTrace p.1 ss

/-- The sum of the sizes of the successful allocations among the first
`i` attempts, given the sizes and the corresponding results. -/
def priorSuccSum (ns : List Nat) (rs : List (Option (Shard α))) (i : Nat) : Nat :=
  ((((ns.zip rs).take i).filter (fun p => p.2.isSome)).map Prod.fst).sum

/-- A writer together with the shards it has handed out that are still
live (not yet returned or dropped). -/
structure Config (α : Type) where
  w : VecWriter α
  live : List (Shard α)

/-- One operation on a writer and its live shards: a take (successful or
failed), a push into one live shard, a return of one live shard
(successful or not — `try_return_shard` consumes the shard either way),
or dropping a live shard without returning it. -/
inductive Step : Config α → Config α → Prop where
  | take (c : Config α) (n : Nat) (w' : VecWriter α) (s : Shard α) :
      tryTakeShard c.w n = (w', some s) → Step c ⟨w', c.live ++ [s]⟩
  | takeFailed (c : Config α) (n : Nat) :
      (tryTakeShard c.w n).2 = none → Step c ⟨(tryTakeShard c.w n).1, c.live⟩
  | push (c : Config α) (pre post : List (Shard α)) (s : Shard α) (v : α) :
      c.live = pre ++ s :: post →
      Step c ⟨{ c.w with storage :=
                  { c.w.storage with mem := (tryPush c.w.storage.mem s v).1.1 } },
              pre ++ (tryPush c.w.storage.mem s v).1.2 :: post⟩
  | ret (c : Config α) (pre post : List (Shard α)) (s : Shard α) :
      c.live = pre ++ s :: post →
      Step c ⟨(tryReturnShard c.w s).1, pre ++ post⟩
  | drop (c : Config α) (pre post : List (Shard α)) (s : Shard α) :
      c.live = pre ++ s :: post → Step c ⟨c.w, pre ++ post⟩

/-- The configuration right after `VecWriter::new`: no live shards. -/
def initConfig (v : VecT α) : Config α :=
  { w := VecWriter.new v, live := [] }

/-- Reachability by any sequence of operations from a fresh writer over
the vector `v`. -/
def Reach (v : VecT α) (c : Config α) : Prop :=
  Relation.ReflTransGen Step (initConfig v) c

/-- The inductive invariant: `len ≤ taken ≤ cap`, and every live shard
ends at or before `taken`. -/
def Inv (c : Config α) : Prop :=
  c.w.storage.len ≤ c.w.taken ∧ c.w.taken ≤ c.w.storage.cap ∧
    ∀ s ∈ c.live, s.end_offset ≤ c.w.taken

/-- An empty capacity-5 vector used to witness the allocation-sequence
property: the first request (6) exceeds capacity, the second (2)
succeeds at range `[0, 2)`. -/
def vW : VecT Nat :=
  { addr := 3, cap := 5, len := 0, mem := List.replicate 5 none }

/-- An empty capacity-2 vector used to witness the round-trip
property. -/
def vRT : VecT Nat :=
  { addr := 4, cap := 2, len := 0, mem := [none, none] }

/-- An empty capacity-3 vector used to witness ordered commits of the
size sequence `[2, 1]`. -/
def vC1 : VecT Nat :=
  { addr := 5, cap := 3, len := 0, mem := [none, none, none] }

/-- Scenario D of the spec: a capacity-10 vector. -/
def vD : VecT Nat :=
  { addr := 1, cap := 10, len := 0, mem := List.replicate 10 none }

/-- Scenario D: the writer after taking a shard of size 4. -/
def wD : VecWriter Nat :=
  (tryTakeShard (VecWriter.new vD) 4).1

/-- Scenario D: the size-4 shard after pushing only the two values 7 and
8 into it. -/
def sD : Shard Nat :=
  { storage := 1, start_offset := 0, end_offset := 4, initialised_up_to := 2 }

/-- Scenario D: the writer with the two pushed values visible in its
allocation. -/
def wD2 : VecWriter Nat :=
  { wD with storage := { wD.storage with
      mem := [some 7, some 8, none, none, none, none, none, none, none, none] } }

/-! ## Basic case lemmas for the three operations -/

lemma tryTakeShard_eq (w : VecWriter α) (n : Nat) :
    (w.taken + n > w.storage.cap ∧ tryTakeShard w n = (w, none)) ∨
    (w.taken + n ≤ w.storage.cap ∧ tryTakeShard w n =
      ({ w with taken := w.taken + n },
       some { storage := w.storage.addr, start_offset := w.taken,
              end_offset := w.taken + n, initialised_up_to := w.taken })) := by
  by_cases h : w.taken + n > w.storage.cap
  · exact Or.inl ⟨h, by simp [tryTakeShard, h]⟩
  · exact Or.inr ⟨by omega, by simp [tryTakeShard, h]⟩

lemma tryTakeShard_some (w : VecWriter α) (n : Nat) (w' : VecWriter α) (s : Shard α)
    (h : tryTakeShard w n = (w', some s)) :
    w.taken + n ≤ w.storage.cap ∧ w' = { w with taken := w.taken + n } ∧
      s = { storage := w.storage.addr, start_offset := w.taken,
            end_offset := w.taken + n, initialised_up_to := w.taken } := by
  rcases tryTakeShard_eq w n with ⟨hgt, heq⟩ | ⟨hle, heq⟩
  · rw [heq] at h
    exact absurd (congrArg Prod.snd h) (by simp)
  · rw [heq] at h
    obtain ⟨h1, h2⟩ := Prod.mk.injEq .. ▸ h
    exact ⟨hle, h1.symm, (Option.some.injEq .. ▸ h2).symm⟩

lemma tryPush_eq (mem : List (Option α)) (s : Shard α) (v : α) :
    (s.initialised_up_to = s.end_offset ∧
      tryPush mem s v = ((mem, s), Except.error InsufficientCapacity.mk)) ∨
    (s.initialised_up_to ≠ s.end_offset ∧ tryPush mem s v =
      ((mem.set s.initialised_up_to (some v),
        { s with initialised_up_to := s.initialised_up_to + 1 }), Except.ok ())) := by
  by_cases h : s.initialised_up_to = s.end_offset
  · exact Or.inl ⟨h, by simp [tryPush, h]⟩
  · exact Or.inr ⟨h, by simp [tryPush, h]⟩

lemma tryReturnShard_eq (w : VecWriter α) (s : Shard α) :
    (w.storage.addr ≠ s.storage ∧
      tryReturnShard w s = (w, Except.error InitError.WrongVec, dropDestructs s)) ∨
    (w.storage.addr = s.storage ∧ s.initialised_up_to ≠ s.end_offset ∧
      tryReturnShard w s = (w, Except.error InitError.UninitElements, dropDestructs s)) ∨
    (w.storage.addr = s.storage ∧ s.initialised_up_to = s.end_offset ∧
      w.storage.len ≠ s.start_offset ∧
      tryReturnShard w s = (w, Except.error InitError.OutOfOrder, dropDestructs s)) ∨
    (w.storage.addr = s.storage ∧ s.initialised_up_to = s.end_offset ∧
      w.storage.len = s.start_offset ∧
      tryReturnShard w s =
        ({ w with storage := { w.storage with len := s.initialised_up_to } },
         Except.ok (), [])) := by
  by_cases h1 : w.storage.addr = s.storage
  · by_cases h2 : s.initialised_up_to = s.end_offset
    · by_cases h3 : w.storage.len = s.start_offset
      · exact Or.inr (Or.inr (Or.inr ⟨h1, h2, h3, by simp [tryReturnShard, h1, h2, h3]⟩))
      · exact Or.inr (Or.inr (Or.inl ⟨h1, h2, h3, by simp [tryReturnShard, h1, h2, h3]⟩))
    · exact Or.inr (Or.inl ⟨h1, h2, by simp [tryReturnShard, h1, h2]⟩)
  · exact Or.inl ⟨h1, by simp [tryReturnShard, h1]⟩

/-! ## C2: the three commit checks, in order, first failing check wins -/

/-- C2: `try_return_shard` performs exactly the three checks, in the
fixed source order — identity of the backing storage (`WrongVec`), full
initialisation (`UninitElements`), then `start_offset` equal to the
vector's current length (`OutOfOrder`) — and when several checks fail the
error returned is the first failing one: each possible outcome is
equivalent to the precise combination of check results below. -/
theorem returnShard_check_order (w : VecWriter α) (s : Shard α) :
    ((tryReturnShard w s).2.1 = Except.error InitError.WrongVec ↔
      ¬ w.storage.addr = s.storage) ∧
    ((tryReturnShard w s).2.1 = Except.error InitError.UninitElements ↔
      w.storage.addr = s.storage ∧ ¬ s.initialised_up_to = s.end_offset) ∧
    ((tryReturnShard w s).2.1 = Except.error InitError.OutOfOrder ↔
      w.storage.addr = s.storage ∧ s.initialised_up_to = s.end_offset ∧
        ¬ w.storage.len = s.start_offset) ∧
    ((tryReturnShard w s).2.1 = Except.ok () ↔
      w.storage.addr = s.storage ∧ s.initialised_up_to = s.end_offset ∧
        w.storage.len = s.start_offset) := by
  rcases tryReturnShard_eq w s with ⟨h1, heq⟩ | ⟨h1, h2, heq⟩ | ⟨h1, h2, h3, heq⟩ |
    ⟨h1, h2, h3, heq⟩ <;> rw [heq] <;> simp_all

/-! ## C5: push semantics and `output_offset` -/

/-- C5: with `cursor < end`, `try_push` succeeds, writes the value at
absolute offset `cursor` (other slots untouched) and increments the
cursor by one; with `cursor == end` it fails with `InsufficientCapacity`
and leaves memory and shard unchanged — in particular the shard is still
committable if it was already full.  `output_offset` always returns the
cursor, the absolute index the next push would target. -/
theorem push_spec (mem : List (Option α)) (s : Shard α) (v : α)
    (hbound : s.end_offset ≤ mem.length) :
    (s.initialised_up_to < s.end_offset →
      (tryPush mem s v).2 = Except.ok () ∧
      ((tryPush mem s v).1.1)[s.initialised_up_to]? = some (some v) ∧
      (∀ j, j ≠ s.initialised_up_to → ((tryPush mem s v).1.1)[j]? = mem[j]?) ∧
      (tryPush mem s v).1.2 =
        { s with initialised_up_to := s.initialised_up_to + 1 }) ∧
    (s.initialised_up_to = s.end_offset →
      tryPush mem s v = ((mem, s), Except.error InsufficientCapacity.mk)) ∧
    Shard.output_offset s = s.initialised_up_to := by
  refine ⟨fun hlt => ?_, fun heq => ?_, rfl⟩
  · rcases tryPush_eq mem s v with ⟨h, _⟩ | ⟨_, heq⟩
    · omega
    · rw [heq]
      refine ⟨rfl, ?_, fun j hj => ?_, rfl⟩
      · exact List.getElem?_set_eq_of_lt (some v) (by omega)
      · exact List.getElem?_set_ne (Ne.symm hj)
  · rcases tryPush_eq mem s v with ⟨_, h⟩ | ⟨h, _⟩
    · exact h
    · omega

/-- Witness for `push_spec` at a concrete input: a shard `[0, 2)` with
cursor 1 over a 2-slot allocation; the push writes `9` at offset 1. -/
theorem push_spec_witness :
    (({ storage := 1, start_offset := 0, end_offset := 2,
        initialised_up_to := 1 } : Shard Nat).end_offset ≤
      ([some 5, none] : List (Option Nat)).length) ∧
    (tryPush ([some 5, none] : List (Option Nat))
      { storage := 1, start_offset := 0, end_offset := 2,
        initialised_up_to := 1 } 9).2 = Except.ok () :=
  ⟨by decide,
   ((push_spec ([some 5, none] : List (Option Nat))
      { storage := 1, start_offset := 0, end_offset := 2,
        initialised_up_to := 1 } 9 (by decide)).1 (by decide)).1⟩

/-! ## C9: abandonment destructs exactly the initialised prefix -/

/-- C9: dropping a shard without returning it destructs exactly the
values at offsets `[start_offset, initialised_up_to)`, in ascending
offset order; offsets at or beyond the cursor are never touched; and the
writer's vector — its logical length, capacity and slots — is
unchanged. -/
theorem abandon_spec (w : VecWriter α) (s : Shard α)
    (hinv : s.start_offset ≤ s.initialised_up_to) :
    (abandon w s).1 = w ∧
    ((abandon w s).2).Sorted (· < ·) ∧
    (∀ o, o ∈ (abandon w s).2 ↔
      s.start_offset ≤ o ∧ o < s.initialised_up_to) ∧
    (∀ o, s.initialised_up_to ≤ o → o ∉ (abandon w s).2) := by
  refine ⟨rfl, List.pairwise_lt_range' _ _ 1 (by omega), fun o => ?_, fun o ho hmem => ?_⟩
  · rw [abandon, dropDestructs, List.mem_range'_1]
    omega
  · rw [abandon, dropDestructs, List.mem_range'_1] at hmem
    omega

/-- Witness for `abandon_spec`: a shard `[1, 4)` filled up to 3 destructs
offsets 1 and 2 only. -/
theorem abandon_spec_witness :
    (({ storage := 1, start_offset := 1, end_offset := 4,
        initialised_up_to := 3 } : Shard Nat).start_offset ≤ 3) ∧
    ((2 : Nat) ∈ (abandon (VecWriter.new vD)
      { storage := 1, start_offset := 1, end_offset := 4,
        initialised_up_to := 3 }).2 ↔ 1 ≤ 2 ∧ 2 < 3) :=
  ⟨by decide,
   (abandon_spec (VecWriter.new vD)
      { storage := 1, start_offset := 1, end_offset := 4,
        initialised_up_to := 3 } (by decide)).2.2.1 2⟩

/-! ## C10: zero-size allocation -/

/-- C10: taking a shard of size 0 always succeeds (whenever `taken` is
within capacity, including `taken = cap` and `cap = 0`), leaves the
writer unchanged and yields the empty shard `[taken, taken)` whose cursor
already equals its end; if moreover the shard is committed immediately in
order (`len = taken`), the commit succeeds and leaves the writer — in
particular the logical length — unchanged. -/
theorem take_zero_spec (w : VecWriter α) (hcap : w.taken ≤ w.storage.cap) :
    tryTakeShard w 0 =
      (w, some { storage := w.storage.addr, start_offset := w.taken,
                 end_offset := w.taken, initialised_up_to := w.taken }) ∧
    (w.storage.len = w.taken →
      tryReturnShard w { storage := w.storage.addr, start_offset := w.taken,
                         end_offset := w.taken, initialised_up_to := w.taken } =
        (w, Except.ok (), [])) := by
  constructor
  · rcases tryTakeShard_eq w 0 with ⟨hgt, _⟩ | ⟨_, heq⟩
    · omega
    · rw [heq]
      simp
  · intro hord
    obtain ⟨⟨a, c, l, m⟩, t⟩ := w
    have h2 : l = t := hord
    subst h2
    simp [tryReturnShard]

/-- Witness for `take_zero_spec`: a fully-consumed capacity-0 writer
still hands out (and accepts back) an empty shard. -/
theorem take_zero_spec_witness :
    ((VecWriter.new ({ addr := 2, cap := 0, len := 0, mem := [] } : VecT Nat)).taken ≤
      (VecWriter.new ({ addr := 2, cap := 0, len := 0, mem := [] } : VecT Nat)).storage.cap) ∧
    tryTakeShard (VecWriter.new ({ addr := 2, cap := 0, len := 0, mem := [] } : VecT Nat)) 0 =
      (VecWriter.new ({ addr := 2, cap := 0, len := 0, mem := [] } : VecT Nat),
       some { storage := 2, start_offset := 0, end_offset := 0, initialised_up_to := 0 }) :=
  ⟨by decide,
   (take_zero_spec (VecWriter.new ({ addr := 2, cap := 0, len := 0, mem := [] } : VecT Nat))
      (by decide)).1⟩

/-! ## Facts about `pushAll` -/

lemma pushAll_some_fields :
    ∀ (vs : List α) (mem : List (Option α)) (s : Shard α) (r : (List (Option α) × Shard α) × List Nat),
      pushAll mem s vs = some r →
      r.1.2.storage = s.storage ∧ r.1.2.start_offset = s.start_offset ∧
        r.1.2.end_offset = s.end_offset
  | [], mem, s, r, h => by
    rw [pushAll] at h
    obtain rfl := (Option.some.injEq .. ▸ h).symm
    exact ⟨rfl, rfl, rfl⟩
  | v :: vs, mem, s, r, h => by
    rw [pushAll] at h
    rcases tryPush_eq mem s v with ⟨_, heq⟩ | ⟨_, heq⟩
    · rw [heq] at h
      exact absurd h (by simp)
    · rw [heq] at h
      simp only [Option.map_eq_some'] at h
      obtain ⟨p, hp, rfl⟩ := h
      obtain ⟨h1, h2, h3⟩ := pushAll_some_fields vs _ _ p hp
      exact ⟨h1, h2, h3⟩

/-! ## C7: cross-writer rejection -/

/-- C7: a shard taken from one writer and filled by pushes — even fully
filled, and even correctly ordered for the other writer's vector — is
always rejected by a writer over a different allocation, with
`WrongVec`, and that writer is left unchanged. -/
theorem cross_writer_rejected (w1 w2 : VecWriter α) (n : Nat) (w1' : VecWriter α)
    (s : Shard α) (vs : List α) (mem' : List (Option α)) (s' : Shard α) (os : List Nat)
    (haddr : w1.storage.addr ≠ w2.storage.addr)
    (htake : tryTakeShard w1 n = (w1', some s))
    (hpush : pushAll w1'.storage.mem s vs = some ((mem', s'), os))
    (_hfull : s'.initialised_up_to = s'.end_offset)
    (_horder : w2.storage.len = s'.start_offset) :
    (tryReturnShard w2 s').2.1 = Except.error InitError.WrongVec ∧
    (tryReturnShard w2 s').1 = w2 := by
  have hsto : s'.storage = w1.storage.addr := by
    rw [(pushAll_some_fields vs _ s ((mem', s'), os) hpush).1,
      (tryTakeShard_some w1 n w1' s htake).2.2]
  have hne : w2.storage.addr ≠ s'.storage := by
    rw [hsto]
    exact fun h => haddr h.symm
  rcases tryReturnShard_eq w2 s' with ⟨_, heq⟩ | ⟨h1, _⟩ | ⟨h1, _⟩ | ⟨h1, _⟩
  · rw [heq]
    exact ⟨rfl, rfl⟩
  all_goals exact absurd h1 hne

/-- Witness for `cross_writer_rejected`: a full, correctly-ordered
size-2 shard from a writer at address 1 is rejected by a fresh writer at
address 2. -/
theorem cross_writer_rejected_witness :
    (tryReturnShard
      (VecWriter.new ({ addr := 2, cap := 2, len := 0, mem := [none, none] } : VecT Nat))
      { storage := 1, start_offset := 0, end_offset := 2,
        initialised_up_to := 2 }).2.1 = Except.error InitError.WrongVec :=
  (cross_writer_rejected
    (VecWriter.new ({ addr := 1, cap := 2, len := 0, mem := [none, none] } : VecT Nat))
    (VecWriter.new ({ addr := 2, cap := 2, len := 0, mem := [none, none] } : VecT Nat))
    2 _ _ [5, 6] [some 5, some 6]
    { storage := 1, start_offset := 0, end_offset := 2, initialised_up_to := 2 }
    [0, 1] (by decide) rfl rfl rfl rfl).1

/-! ## C6: failure atomicity of the commit -/

lemma mem_dropDestructs (s : Shard α) (hinv : s.start_offset ≤ s.initialised_up_to)
    (o : Nat) :
    o ∈ dropDestructs s ↔ s.start_offset ≤ o ∧ o < s.initialised_up_to := by
  rw [dropDestructs, List.mem_range'_1]
  omega

/-- C6 counterexample (spec Scenario D): capacity 10, a size-4 shard
with only 2 values pushed; the fallible commit fails with
`UninitElements`, but the shard is not given back to the caller — it is
consumed by the call, which destructs its two written values (offsets 0
and 1).  The non-empty destruct list refutes "`the shard is given back
to the caller unmodified and still usable`". -/
theorem return_failure_gives_back_shard_cex :
    (tryTakeShard (VecWriter.new vD) 4).2 =
      some { storage := 1, start_offset := 0, end_offset := 4,
             initialised_up_to := 0 } ∧
    pushAll wD.storage.mem
      { storage := 1, start_offset := 0, end_offset := 4,
        initialised_up_to := 0 } [7, 8] =
      some ((wD2.storage.mem, sD), [0, 1]) ∧
    tryReturnShard wD2 sD = (wD2, Except.error InitError.UninitElements, [0, 1]) ∧
    ([0, 1] : List Nat) ≠ [] :=
  ⟨rfl, rfl, rfl, by decide⟩

/-- C6 (amended): whenever the fallible commit fails, the writer — and
with it the vector's logical length — is unchanged; but the shard,
passed by value, is consumed by the failed call: its initialised values
at offsets `[start_offset, initialised_up_to)` are destructed by its
drop, so it is not handed back to the caller. -/
theorem return_failure_atomic (w : VecWriter α) (s : Shard α)
    (w' : VecWriter α) (e : InitError) (l : List Nat)
    (h : tryReturnShard w s = (w', Except.error e, l)) :
    w' = w ∧ l = dropDestructs s ∧
    (s.start_offset ≤ s.initialised_up_to →
      ∀ o, o ∈ l ↔ s.start_offset ≤ o ∧ o < s.initialised_up_to) := by
  have hl : w' = w ∧ l = dropDestructs s := by
    rcases tryReturnShard_eq w s with ⟨_, heq⟩ | ⟨_, _, heq⟩ | ⟨_, _, _, heq⟩ |
      ⟨_, _, _, heq⟩ <;> rw [heq] at h <;> simp only [Prod.mk.injEq] at h
    · exact ⟨h.1.symm, h.2.2.symm⟩
    · exact ⟨h.1.symm, h.2.2.symm⟩
    · exact ⟨h.1.symm, h.2.2.symm⟩
    · exact absurd h.2.1 (by simp)
  refine ⟨hl.1, hl.2, fun hinv o => ?_⟩
  rw [hl.2]
  exact mem_dropDestructs s hinv o

/-- Witness for `return_failure_atomic` at the Scenario-D input. -/
theorem return_failure_atomic_witness :
    wD2 = wD2 ∧ ([0, 1] : List Nat) = dropDestructs sD :=
  ⟨(return_failure_atomic wD2 sD wD2 InitError.UninitElements [0, 1] rfl).1,
   (return_failure_atomic wD2 sD wD2 InitError.UninitElements [0, 1] rfl).2.1⟩

/-! ## C3: allocation semantics -/

lemma takeAll_cons (w : VecWriter α) (n : Nat) (ns : List Nat) :
    takeAll w (n :: ns) =
      ((takeAll (tryTakeShard w n).1 ns).1,
       (tryTakeShard w n).2 :: (takeAll (tryTakeShard w n).1 ns).2) :=
  rfl

lemma priorSuccSum_zero (ns : List Nat) (rs : List (Option (Shard α))) :
    priorSuccSum ns rs 0 = 0 :=
  rfl

lemma priorSuccSum_cons (n : Nat) (ns : List Nat) (o : Option (Shard α))
    (rs : List (Option (Shard α))) (i : Nat) :
    priorSuccSum (n :: ns) (o :: rs) (i + 1) =
      (if o.isSome then n else 0) + priorSuccSum ns rs i := by
  cases o <;> simp [priorSuccSum]

lemma tryTakeShard_storage (w : VecWriter α) (n : Nat) :
    (tryTakeShard w n).1.storage = w.storage := by
  rcases tryTakeShard_eq w n with ⟨_, heq⟩ | ⟨_, heq⟩ <;> rw [heq]

lemma tryTakeShard_taken (w : VecWriter α) (n : Nat) :
    (tryTakeShard w n).1.taken =
      w.taken + (if (tryTakeShard w n).2.isSome then n else 0) := by
  rcases tryTakeShard_eq w n with ⟨_, heq⟩ | ⟨_, heq⟩ <;> rw [heq] <;> simp

lemma takeAll_get (ns : List Nat) :
    ∀ (w : VecWriter α) (i ni : Nat), ns[i]? = some ni →
      ∀ o, ((takeAll w ns).2)[i]? = some o →
        (o.isSome ↔ w.taken + priorSuccSum ns (takeAll w ns).2 i + ni ≤ w.storage.cap) ∧
        (∀ s, o = some s →
          s.start_offset = w.taken + priorSuccSum ns (takeAll w ns).2 i ∧
          s.end_offset = w.taken + priorSuccSum ns (takeAll w ns).2 i + ni) := by
  induction ns with
  | nil =>
    intro w i ni h
    simp at h
  | cons n ns ih =>
    intro w i ni h o ho
    match i with
    | 0 =>
      have hni : n = ni := by
        simp at h
        omega
      subst hni
      rw [takeAll_cons] at ho
      simp at ho
      subst ho
      rw [takeAll_cons, priorSuccSum_zero]
      rcases tryTakeShard_eq w n with ⟨hgt, heq⟩ | ⟨hle, heq⟩ <;> rw [heq] <;>
        simp <;> omega
    | i + 1 =>
      have h' : ns[i]? = some ni := by simpa using h
      rw [takeAll_cons] at ho
      simp at ho
      have := ih (tryTakeShard w n).1 i ni h' o ho
      rw [takeAll_cons, priorSuccSum_cons]
      rw [tryTakeShard_taken, tryTakeShard_storage] at this
      obtain ⟨h1, h2⟩ := this
      constructor
      · rw [h1]
        constructor <;> intro <;> omega
      · intro s hs
        obtain ⟨h3, h4⟩ := h2 s hs
        omega

/-- C3: the fallible `take_shard` fails exactly when `taken + n`
exceeds capacity, leaving the writer unchanged; on success it returns a
fresh shard over `[taken, taken + n)` of this writer's allocation and
advances `taken` by `n`.  Consequently, over a whole request sequence
from a fresh writer on an empty vector, the `i`-th request succeeds iff
the sum of the previously granted sizes plus `nᵢ` fits in the capacity,
and then its range is `[Σ_granted, Σ_granted + nᵢ)`. -/
theorem allocate_spec (w : VecWriter α) (n : Nat) :
    ((tryTakeShard w n).2 = none ↔ w.storage.cap < w.taken + n) ∧
    ((tryTakeShard w n).2 = none → (tryTakeShard w n).1 = w) ∧
    (∀ s, (tryTakeShard w n).2 = some s →
      s.storage = w.storage.addr ∧ s.start_offset = w.taken ∧
      s.end_offset = w.taken + n ∧ s.initialised_up_to = w.taken ∧
      (tryTakeShard w n).1 = { w with taken := w.taken + n }) ∧
    (∀ (v : VecT α), v.len = 0 → ∀ (ns : List Nat) (i ni : Nat), ns[i]? = some ni →
      ∀ o, ((takeAll (VecWriter.new v) ns).2)[i]? = some o →
        (o.isSome ↔ priorSuccSum ns (takeAll (VecWriter.new v) ns).2 i + ni ≤ v.cap) ∧
        (∀ s, o = some s →
          s.start_offset = priorSuccSum ns (takeAll (VecWriter.new v) ns).2 i ∧
          s.end_offset = priorSuccSum ns (takeAll (VecWriter.new v) ns).2 i + ni)) := by
  refine ⟨?_, ?_, ?_, ?_⟩
  · rcases tryTakeShard_eq w n with ⟨hgt, heq⟩ | ⟨hle, heq⟩ <;> rw [heq] <;> simp <;> omega
  · intro hnone
    rcases tryTakeShard_eq w n with ⟨_, heq⟩ | ⟨_, heq⟩
    · rw [heq]
    · rw [heq] at hnone
      simp at hnone
  · intro s hs
    rcases tryTakeShard_eq w n with ⟨_, heq⟩ | ⟨_, heq⟩ <;> rw [heq] at hs ⊢
    · exact absurd hs (by simp)
    · simp at hs
      subst hs
      exact ⟨rfl, rfl, rfl, rfl, rfl⟩
  · intro v hv ns i ni hni o ho
    have := takeAll_get ns (VecWriter.new v) i ni hni o ho
    have hz : (VecWriter.new v).taken = 0 := by
      rw [VecWriter.new, hv]
    rw [hz] at this
    have hc : (VecWriter.new v).storage.cap = v.cap := rfl
    rw [hc] at this
    obtain ⟨h1, h2⟩ := this
    refine ⟨by rw [h1]; constructor <;> intro <;> omega, fun s hs => ?_⟩
    obtain ⟨h3, h4⟩ := h2 s hs
    omega

/-- Witness for `allocate_spec`: on the capacity-5 vector `vW`, a
request of 6 fails and leaves the writer unchanged; in the sequence
`[6, 2]` the second request is granted the range `[0, 2)` because the
failed first request consumed nothing. -/
theorem allocate_spec_witness :
    (tryTakeShard (VecWriter.new vW) 6).1 = VecWriter.new vW ∧
    ({ storage := 3, start_offset := 0, end_offset := 2,
       initialised_up_to := 0 } : Shard Nat).start_offset =
      priorSuccSum [6, 2] ((takeAll (VecWriter.new vW) [6, 2]).2) 1 :=
  ⟨(allocate_spec (VecWriter.new vW) 6).2.1 rfl,
   (((allocate_spec (VecWriter.new vW) 6).2.2.2 vW rfl [6, 2] 1 2 rfl
      (some { storage := 3, start_offset := 0, end_offset := 2,
              initialised_up_to := 0 }) rfl).2
     { storage := 3, start_offset := 0, end_offset := 2,
       initialised_up_to := 0 } rfl).1⟩

/-! ## C4: round trip through push and commit -/

lemma pushAll_sound :
    ∀ (vs : List α) (mem : List (Option α)) (s : Shard α),
      s.initialised_up_to + vs.length ≤ s.end_offset →
      s.end_offset ≤ mem.length →
      ∃ mem', pushAll mem s vs =
          some ((mem',
                 { s with initialised_up_to := s.initialised_up_to + vs.length }),
                List.range' s.initialised_up_to vs.length) ∧
        mem'.length = mem.length ∧
        (∀ i (hi : i < vs.length),
          mem'[s.initialised_up_to + i]? = some (some (vs.get ⟨i, hi⟩))) ∧
        (∀ j, j < s.initialised_up_to ∨ s.initialised_up_to + vs.length ≤ j →
          mem'[j]? = mem[j]?) := by
  intro vs
  induction vs with
  | nil =>
    intro mem s _ _
    exact ⟨mem, rfl, rfl, fun i hi => absurd hi (by simp), fun j _ => rfl⟩
  | cons v vs ih =>
    intro mem s hfit hbound
    simp only [List.length_cons] at hfit
    rcases tryPush_eq mem s v with ⟨hful, _⟩ | ⟨_, heq⟩
    · omega
    · obtain ⟨mem', hpush, hlen, hval, hframe⟩ :=
        ih (mem.set s.initialised_up_to (some v))
          { s with initialised_up_to := s.initialised_up_to + 1 }
          (by show s.initialised_up_to + 1 + vs.length ≤ s.end_offset; omega)
          (by rw [List.length_set]; exact hbound)
      refine ⟨mem', ?_, by rw [hlen, List.length_set], ?_, ?_⟩
      · simp only [pushAll, heq, hpush, Option.map_some', List.length_cons]
        rw [List.range'_succ]
        simp only [Option.some.injEq, Prod.mk.injEq, Shard.mk.injEq, true_and, and_true]
        omega
      · intro i hi
        match i with
        | 0 =>
          have hfr := hframe s.initialised_up_to
            (Or.inl (by show s.initialised_up_to < s.initialised_up_to + 1; omega))
          rw [Nat.add_zero, hfr]
          exact List.getElem?_set_eq_of_lt (some v) (by omega)
        | i + 1 =>
          have hi' : i < vs.length := by
            have hc := hi
            simp only [List.length_cons] at hc
            omega
          have hv := hval i hi'
          rw [show s.initialised_up_to + (i + 1) = s.initialised_up_to + 1 + i from by omega]
          exact hv
      · intro j hj
        have hj' : j < s.initialised_up_to ∨ s.initialised_up_to + (vs.length + 1) ≤ j := by
          simpa using hj
        have hfr := hframe j (by
          rcases hj' with h | h
          · exact Or.inl (by show j < s.initialised_up_to + 1; omega)
          · exact Or.inr (by show s.initialised_up_to + 1 + vs.length ≤ j; omega))
        rw [hfr]
        exact List.getElem?_set_ne (show s.initialised_up_to ≠ j from by omega)

lemma pushAll_fillFull (s : Shard α) (mem : List (Option α)) (vs : List α)
    (hlen : vs.length = s.end_offset - s.initialised_up_to)
    (hfit : s.initialised_up_to ≤ s.end_offset)
    (hbound : s.end_offset ≤ mem.length) :
    ∃ mem', pushAll mem s vs =
      some ((mem', fillFull s), List.range' s.initialised_up_to vs.length) := by
  obtain ⟨mem', hpush, _, _, _⟩ := pushAll_sound vs mem s (by omega) hbound
  refine ⟨mem', ?_⟩
  rw [hpush, fillFull,
    show s.initialised_up_to + vs.length = s.end_offset from by omega]

/-- C4: take a shard, push a full list of values into it, and commit it.
The commit succeeds; the `i`-th push wrote at absolute offset
`start_offset + i` (the shard's cursor at the time of that push, as the
recorded offset list shows), and after the commit the vector's logical
contents hold exactly the pushed value at that index, unchanged. -/
theorem round_trip (w : VecWriter α) (n : Nat) (wa : VecWriter α) (s : Shard α)
    (vs : List α) (mem' : List (Option α)) (s' : Shard α) (os : List Nat)
    (hmem : w.storage.mem.length = w.storage.cap)
    (hord : w.storage.len = w.taken)
    (htake : tryTakeShard w n = (wa, some s))
    (hvs : vs.length = n)
    (hpush : pushAll wa.storage.mem s vs = some ((mem', s'), os)) :
    (tryReturnShard { wa with storage := { wa.storage with mem := mem' } } s').2.1 =
      Except.ok () ∧
    ∀ i (hi : i < vs.length),
      os[i]? = some (s.start_offset + i) ∧
      ((tryReturnShard { wa with storage :=
          { wa.storage with mem := mem' } } s').1.storage.contents)[s.start_offset + i]? =
        some (some (vs.get ⟨i, hi⟩)) := by
  obtain ⟨hle, hwa, hs⟩ := tryTakeShard_some w n wa s htake
  subst hwa
  subst hs
  obtain ⟨memS, hpushS, hlenS, hvalS, _⟩ :=
    pushAll_sound vs w.storage.mem
      { storage := w.storage.addr, start_offset := w.taken,
        end_offset := w.taken + n, initialised_up_to := w.taken }
      (by show w.taken + vs.length ≤ w.taken + n; omega)
      (by show w.taken + n ≤ w.storage.mem.length; omega)
  rw [hpushS] at hpush
  simp only [Option.some.injEq, Prod.mk.injEq] at hpush
  obtain ⟨⟨rfl, rfl⟩, rfl⟩ := hpush
  rcases tryReturnShard_eq
      { storage := { w.storage with mem := memS }, taken := w.taken + n }
      { storage := w.storage.addr, start_offset := w.taken,
        end_offset := w.taken + n, initialised_up_to := w.taken + vs.length } with
    ⟨h1, _⟩ | ⟨_, h2, _⟩ | ⟨_, _, h3, _⟩ | ⟨_, _, _, heq⟩
  · exact absurd rfl h1
  · exact absurd (show w.taken + vs.length = w.taken + n from by omega) h2
  · exact absurd (show w.storage.len = w.taken from hord) h3
  · rw [heq]
    refine ⟨rfl, fun i hi => ⟨?_, ?_⟩⟩
    · rw [List.getElem?_range' _ _ hi]
      simp
    · show ((memS.take (w.taken + vs.length)))[w.taken + i]? = _
      rw [List.getElem?_take_of_lt (by omega)]
      exact hvalS i hi

/-- Witness for `round_trip`: pushing `[4, 5]` into a size-2 shard of a
fresh capacity-2 writer and committing; the commit succeeds and the
value pushed at offset 0 is at buffer index 0. -/
theorem round_trip_witness :
    (VecWriter.new vRT).storage.mem.length = (VecWriter.new vRT).storage.cap ∧
    (tryReturnShard
      { storage := { addr := 4, cap := 2, len := 0, mem := [some 4, some 5] },
        taken := 2 }
      { storage := 4, start_offset := 0, end_offset := 2,
        initialised_up_to := 2 }).2.1 = Except.ok () ∧
    ([0, 1] : List Nat)[0]? = some 0 ∧
    ((tryReturnShard
      { storage := { addr := 4, cap := 2, len := 0, mem := [some 4, some 5] },
        taken := 2 }
      { storage := 4, start_offset := 0, end_offset := 2,
        initialised_up_to := 2 }).1.storage.contents)[0]? = some (some 4) :=
  ⟨rfl,
   (round_trip (VecWriter.new vRT) 2 { storage := vRT, taken := 2 }
      { storage := 4, start_offset := 0, end_offset := 2, initialised_up_to := 0 }
      [4, 5] [some 4, some 5]
      { storage := 4, start_offset := 0, end_offset := 2, initialised_up_to := 2 }
      [0, 1] rfl rfl rfl rfl rfl).1,
   ((round_trip (VecWriter.new vRT) 2 { storage := vRT, taken := 2 }
      { storage := 4, start_offset := 0, end_offset := 2, initialised_up_to := 0 }
      [4, 5] [some 4, some 5]
      { storage := 4, start_offset := 0, end_offset := 2, initialised_up_to := 2 }
      [0, 1] rfl rfl rfl rfl rfl).2 0 (by decide)).1,
   ((round_trip (VecWriter.new vRT) 2 { storage := vRT, taken := 2 }
      { storage := 4, start_offset := 0, end_offset := 2, initialised_up_to := 0 }
      [4, 5] [some 4, some 5]
      { storage := 4, start_offset := 0, end_offset := 2, initialised_up_to := 2 }
      [0, 1] rfl rfl rfl rfl rfl).2 0 (by decide)).2⟩

/-! ## C1: committing fully-filled shards in allocation order -/

lemma returnAllTrace_cons (w : VecWriter α) (s : Shard α) (ss : List (Shard α)) :
    returnAllTrace w (s :: ss) =
      ((tryReturnShard w s).1, (tryReturnShard w s).2.1) ::
        returnAllTrace (tryReturnShard w s).1 ss :=
  rfl

lemma returnAllTrace_length :
    ∀ (ss : List (Shard α)) (w : VecWriter α), (returnAllTrace w ss).length = ss.length
  | [], _ => rfl
  | _ :: ss, w => by
    rw [returnAllTrace_cons, List.length_cons, List.length_cons,
      returnAllTrace_length ss]

lemma takeAllOk_storage :
    ∀ (ns : List Nat) (w w₁ : VecWriter α) (ss : List (Shard α)),
      takeAllOk w ns = some (w₁, ss) → w₁.storage = w.storage := by
  intro ns
  induction ns with
  | nil =>
    intro w w₁ ss h
    simp only [takeAllOk, Option.some.injEq, Prod.mk.injEq] at h
    rw [← h.1]
  | cons n ns ih =>
    intro w w₁ ss h
    rcases tryTakeShard_eq w n with ⟨_, heq⟩ | ⟨_, heq⟩ <;> simp only [takeAllOk, heq] at h
    · exact absurd h (by simp)
    rw [Option.map_eq_some'] at h
    obtain ⟨⟨w₂, ss'⟩, hrec, hpair⟩ := h
    have hsto := ih _ _ _ hrec
    obtain ⟨h1, _⟩ := Prod.mk.injEq .. ▸ hpair
    rw [← h1]
    exact hsto

lemma returnAll_ordered :
    ∀ (ns : List Nat) (wa w₁ : VecWriter α) (ss : List (Shard α)),
      takeAllOk wa ns = some (w₁, ss) →
      ∀ (wc : VecWriter α), wc.storage.addr = wa.storage.addr →
        wc.storage.len = wa.taken →
        ∀ (i : Nat) (si : Shard α), ss[i]? = some si →
          ∀ p, (returnAllTrace wc (ss.map fillFull))[i]? = some p →
            p.2 = Except.ok () ∧ p.1.storage.len = si.end_offset := by
  intro ns
  induction ns with
  | nil =>
    intro wa w₁ ss h wc _ _ i si hss
    simp only [takeAllOk, Option.some.injEq, Prod.mk.injEq] at h
    rw [← h.2] at hss
    simp at hss
  | cons n ns ih =>
    intro wa w₁ ss h wc haddr hlen i si hss p htr
    rcases tryTakeShard_eq wa n with ⟨_, heq⟩ | ⟨hle, heq⟩ <;> simp only [takeAllOk, heq] at h
    · exact absurd h (by simp)
    rw [Option.map_eq_some'] at h
    obtain ⟨⟨w₂, ss'⟩, hrec, hpair⟩ := h
    obtain ⟨hw₂, hcons⟩ := Prod.mk.injEq .. ▸ hpair
    subst hw₂
    rw [← hcons] at hss htr
    have hcommit : tryReturnShard wc
        (fillFull { storage := wa.storage.addr, start_offset := wa.taken,
                    end_offset := wa.taken + n, initialised_up_to := wa.taken }) =
        ({ wc with storage := { wc.storage with len := wa.taken + n } },
         Except.ok (), []) := by
      rcases tryReturnShard_eq wc
        (fillFull { storage := wa.storage.addr, start_offset := wa.taken,
                    end_offset := wa.taken + n, initialised_up_to := wa.taken }) with
        ⟨h1, _⟩ | ⟨_, h2, _⟩ | ⟨_, _, h3, _⟩ | ⟨_, _, _, heq₂⟩
      · exact absurd haddr h1
      · exact absurd rfl h2
      · exact absurd hlen h3
      · exact heq₂
    match i with
    | 0 =>
      simp only [List.getElem?_cons_zero, Option.some.injEq] at hss
      rw [List.map_cons, returnAllTrace_cons, hcommit] at htr
      simp only [List.getElem?_cons_zero, Option.some.injEq] at htr
      rw [← htr, ← hss]
      exact ⟨rfl, rfl⟩
    | i + 1 =>
      simp only [List.getElem?_cons_succ] at hss
      rw [List.map_cons, returnAllTrace_cons, hcommit] at htr
      simp only [List.getElem?_cons_succ] at htr
      exact ih { wa with taken := wa.taken + n } _ ss' hrec
        { wc with storage := { wc.storage with len := wa.taken + n } }
        haddr rfl i si hss p htr

/-- C1: allocate any sequence of shards from a writer with no
outstanding allocations (`len = taken`, as at construction), fill each
fully, and return them strictly in allocation order: every return
succeeds, and after the `i`-th return the vector's logical length is
exactly the `i`-th shard's `end_offset`.  The trace has one entry per
shard. -/
theorem ordered_commits_succeed (w : VecWriter α) (ns : List Nat)
    (w₁ : VecWriter α) (shards : List (Shard α))
    (hfresh : w.storage.len = w.taken)
    (htake : takeAllOk w ns = some (w₁, shards)) :
    (returnAllTrace w₁ (shards.map fillFull)).length = shards.length ∧
    ∀ (i : Nat) (si : Shard α), shards[i]? = some si →
      ∀ p, (returnAllTrace w₁ (shards.map fillFull))[i]? = some p →
        p.2 = Except.ok () ∧ p.1.storage.len = si.end_offset := by
  have hsto : w₁.storage = w.storage := takeAllOk_storage ns w w₁ shards htake
  refine ⟨?_, returnAll_ordered ns w w₁ shards htake w₁ (by rw [hsto]) (by rw [hsto, hfresh])⟩
  rw [returnAllTrace_length, List.length_map]

/-- Witness for `ordered_commits_succeed`: sizes `[2, 1]` on a fresh
capacity-3 writer; the second commit brings the length to 3. -/
theorem ordered_commits_succeed_witness :
    (VecWriter.new vC1).storage.len = (VecWriter.new vC1).taken ∧
    ({ storage := { addr := 5, cap := 3, len := 2, mem := [none, none, none] }, taken := 3 } : VecWriter Nat).storage.len =
      ({ storage := 5, start_offset := 0, end_offset := 2, initialised_up_to := 0 } : Shard Nat).end_offset :=
  ⟨rfl,
   ((ordered_commits_succeed (VecWriter.new vC1) [2, 1]
      { storage := vC1, taken := 3 }
      [{ storage := 5, start_offset := 0, end_offset := 2, initialised_up_to := 0 },
       { storage := 5, start_offset := 2, end_offset := 3, initialised_up_to := 2 }]
      rfl rfl).2 0
      { storage := 5, start_offset := 0, end_offset := 2, initialised_up_to := 0 }
      rfl
      ({ storage := { addr := 5, cap := 3, len := 2, mem := [none, none, none] }, taken := 3 }, Except.ok ()) rfl).2⟩

/-! ## C8: the writer state invariant -/

lemma step_inv {c c' : Config α} (h : Step c c') (hInv : Inv c) : Inv c' := by
  obtain ⟨hlt, hcap, hlive⟩ := hInv
  cases h with
  | take n w' s htk =>
    obtain ⟨hle, rfl, rfl⟩ := tryTakeShard_some _ n w' s htk
    refine ⟨?_, hle, ?_⟩
    · show c.w.storage.len ≤ c.w.taken + n
      omega
    · intro x hx
      rcases List.mem_append.mp hx with hx | hx
      · have := hlive x hx
        show x.end_offset ≤ c.w.taken + n
        omega
      · rcases List.mem_cons.mp hx with rfl | hx
        · show c.w.taken + n ≤ c.w.taken + n
          omega
        · exact absurd hx (by simp)
  | takeFailed n hnone =>
    rcases tryTakeShard_eq c.w n with ⟨_, heq⟩ | ⟨_, heq⟩
    · rw [heq]
      exact ⟨hlt, hcap, hlive⟩
    · rw [heq] at hnone
      exact absurd hnone (by simp)
  | push pre post s v hsplit =>
    refine ⟨hlt, hcap, ?_⟩
    intro x hx
    rcases List.mem_append.mp hx with hx | hx
    · exact hlive x (by rw [hsplit]; exact List.mem_append.mpr (Or.inl hx))
    · rcases List.mem_cons.mp hx with rfl | hx
      · have hs : s ∈ c.live := by
          rw [hsplit]
          exact List.mem_append.mpr (Or.inr (List.mem_cons_self ..))
        have hend := hlive s hs
        rcases tryPush_eq c.w.storage.mem s v with ⟨_, heq⟩ | ⟨_, heq⟩ <;> rw [heq] <;>
          exact hend
      · exact hlive x
          (by rw [hsplit]; exact List.mem_append.mpr (Or.inr (List.mem_cons_of_mem _ hx)))
  | ret pre post s hsplit =>
    have hs : s ∈ c.live := by
      rw [hsplit]
      exact List.mem_append.mpr (Or.inr (List.mem_cons_self ..))
    have hsub : ∀ x, x ∈ pre ++ post → x ∈ c.live := by
      intro x hx
      rw [hsplit]
      rcases List.mem_append.mp hx with hx | hx
      · exact List.mem_append.mpr (Or.inl hx)
      · exact List.mem_append.mpr (Or.inr (List.mem_cons_of_mem _ hx))
    rcases tryReturnShard_eq c.w s with ⟨_, heq⟩ | ⟨_, _, heq⟩ | ⟨_, _, _, heq⟩ |
      ⟨_, h2, _, heq⟩ <;> rw [heq]
    · exact ⟨hlt, hcap, fun x hx => hlive x (hsub x hx)⟩
    · exact ⟨hlt, hcap, fun x hx => hlive x (hsub x hx)⟩
    · exact ⟨hlt, hcap, fun x hx => hlive x (hsub x hx)⟩
    · refine ⟨?_, hcap, fun x hx => hlive x (hsub x hx)⟩
      show s.initialised_up_to ≤ c.w.taken
      rw [h2]
      exact hlive s hs
  | drop pre post s hsplit =>
    have hsub : ∀ x, x ∈ pre ++ post → x ∈ c.live := by
      intro x hx
      rw [hsplit]
      rcases List.mem_append.mp hx with hx | hx
      · exact List.mem_append.mpr (Or.inl hx)
      · exact List.mem_append.mpr (Or.inr (List.mem_cons_of_mem _ hx))
    exact ⟨hlt, hcap, fun x hx => hlive x (hsub x hx)⟩

lemma reflTrans_inv {v : VecT α} (hv : v.len ≤ v.cap) {c : Config α}
    (h : Relation.ReflTransGen Step (initConfig v) c) : Inv c := by
  induction h with
  | refl => exact ⟨le_refl _, hv, fun s hs => absurd hs (by simp [initConfig])⟩
  | tail _ hstep ih => exact step_inv hstep ih

/-- C8: at construction the writer's `taken` equals the vector's length
(so the allocatable budget is `cap - len`), and in every configuration
reachable by any sequence of takes, pushes, returns and drops,
`len ≤ taken ≤ cap` holds. -/
theorem writer_state_invariant (v : VecT α) (hv : v.len ≤ v.cap) :
    (VecWriter.new v).taken = v.len ∧
    ∀ c : Config α, Reach v c →
      c.w.storage.len ≤ c.w.taken ∧ c.w.taken ≤ c.w.storage.cap := by
  refine ⟨rfl, fun c h => ?_⟩
  obtain ⟨h1, h2, _⟩ := reflTrans_inv hv h
  exact ⟨h1, h2⟩

/-- Witness for `writer_state_invariant` at the initial configuration
over the concrete capacity-3 vector. -/
theorem writer_state_invariant_witness :
    vC1.len ≤ vC1.cap ∧
    ((initConfig vC1).w.storage.len ≤ (initConfig vC1).w.taken ∧
      (initConfig vC1).w.taken ≤ (initConfig vC1).w.storage.cap) :=
  ⟨by decide,
   (writer_state_invariant vC1 (by decide)).2 (initConfig vC1)
     Relation.ReflTransGen.refl⟩

end ShardedVecWriter
